import Mathlib

/-!
Verification of the Connect 4 solver sources (`bitboard.rs`, `solver.rs`,
`lib.rs`, `transposition_table.rs`, `opening_database.rs`) against their
specification. Machine integers are embedded as `Nat` with explicit
reductions modulo `2^64` / `2^32` where the Rust code wraps, and `Int`
with `Int.tdiv` where the Rust code uses signed `i32` arithmetic
(truncating division). Fallible code returns `Option` / `Except`.
-/

/-- The modulus of `u64` / 64-bit `usize` arithmetic (`2^64`). -/
def M64 : Nat := 18446744073709551616

/-- The modulus of `u32` arithmetic (`2^32`). -/
def M32 : Nat := 4294967296

/-- Rust `u64` left shift (truncating to 64 bits). -/
def shl64 (x k : Nat) : Nat := (x <<< k) % M64

/-- Rust `u64` wrapping addition (`+` on `u64`, `usize::wrapping_add`). -/
def add64 (x y : Nat) : Nat := (x + y) % M64

/-- Rust `usize::wrapping_sub` on a 64-bit platform. -/
def wsub64 (x y : Nat) : Nat := (x + M64 - y % M64) % M64

/-- Rust `u64` bitwise complement `!x`. -/
def not64 (x : Nat) : Nat := (M64 - 1) ^^^ x

/-- Rust `u32` truncation `x as u32`. -/
def low32 (x : Nat) : Nat := x % M32

/-- Rust `i32 as u8` two's-complement truncation to a byte. -/
def toU8 (x : Int) : Nat := (x % 256).toNat

/-- Rust `u64::count_ones`. -/
def popcount (n : Nat) : Nat :=
  if n = 0 then 0 else n % 2 + popcount (n / 2)
decreasing_by exact Nat.div_lt_self (Nat.pos_of_ne_zero (by assumption)) (by omega)

/-- Board width `W` (`lib.rs`). -/
def WIDTH : Nat := 7

/-- Board height `H` (`lib.rs`). -/
def HEIGHT : Nat := 6

/-- A Connect 4 bitboard (`bitboard.rs`): mask of the current player's
tiles, mask of all tiles, and the move counter. -/
structure BitBoard where
  player_mask : Nat
  board_mask : Nat
  num_moves : Nat
deriving DecidableEq, Repr

namespace BitBoard

/-- Embeds `static_masks::bottom_mask`: one bit at the bottom of each column. -/
def bottomMaskAll : Nat :=
  (List.range WIDTH).foldl (fun mask column => mask ||| shl64 1 (column * (HEIGHT + 1))) 0

/-- Embeds `static_masks::full_board_mask`. -/
def fullBoardMask : Nat := bottomMaskAll * ((1 <<< HEIGHT) - 1) % M64

/-- Embeds `BitBoard::new`. -/
def newBoard : BitBoard := ⟨0, 0, 0⟩

/-- Embeds `BitBoard::top_mask`: the top playable square of a column. -/
def topMask (column : Nat) : Nat := shl64 1 (column * (HEIGHT + 1) + (HEIGHT - 1))

/-- Embeds `BitBoard::bottom_mask`: the bottom square of a column. -/
def bottomMask (column : Nat) : Nat := shl64 1 (column * (HEIGHT + 1))

/-- Embeds `BitBoard::column_mask`. -/
def columnMask (column : Nat) : Nat := shl64 ((1 <<< HEIGHT) - 1) (column * (HEIGHT + 1))

/-- Embeds `BitBoard::possible_moves`. -/
def possibleMoves (b : BitBoard) : Nat :=
  add64 b.board_mask bottomMaskAll &&& fullBoardMask

/-- Embeds `BitBoard::winning_positions`: open squares completing an alignment
for the player whose tiles are `player_mask`. -/
def winningPositions (b : BitBoard) (player_mask : Nat) : Nat :=
  -- vertical
  let r0 := shl64 player_mask 1 &&& shl64 player_mask 2 &&& shl64 player_mask 3
  -- horizontal
  let p1 := shl64 player_mask (HEIGHT + 1) &&& shl64 player_mask (2 * (HEIGHT + 1))
  let r1 := r0 ||| (p1 &&& shl64 player_mask (3 * (HEIGHT + 1)))
  let r2 := r1 ||| (p1 &&& (player_mask >>> (HEIGHT + 1)))
  let p2 := (player_mask >>> (HEIGHT + 1)) &&& (player_mask >>> (2 * (HEIGHT + 1)))
  let r3 := r2 ||| (p2 &&& (player_mask >>> (3 * (HEIGHT + 1))))
  let r4 := r3 ||| (p2 &&& shl64 player_mask (HEIGHT + 1))
  -- diagonal /
  let p3 := shl64 player_mask HEIGHT &&& shl64 player_mask (2 * HEIGHT)
  let r5 := r4 ||| (p3 &&& shl64 player_mask (3 * HEIGHT))
  let r6 := r5 ||| (p3 &&& (player_mask >>> HEIGHT))
  let p4 := (player_mask >>> HEIGHT) &&& (player_mask >>> (2 * HEIGHT))
  let r7 := r6 ||| (p4 &&& (player_mask >>> (3 * HEIGHT)))
  let r8 := r7 ||| (p4 &&& shl64 player_mask HEIGHT)
  -- diagonal \
  let p5 := shl64 player_mask (HEIGHT + 2) &&& shl64 player_mask (2 * (HEIGHT + 2))
  let r9 := r8 ||| (p5 &&& shl64 player_mask (3 * (HEIGHT + 2)))
  let r10 := r9 ||| (p5 &&& (player_mask >>> (HEIGHT + 2)))
  let p6 := (player_mask >>> (HEIGHT + 2)) &&& (player_mask >>> (2 * (HEIGHT + 2)))
  let r11 := r10 ||| (p6 &&& (player_mask >>> (3 * (HEIGHT + 2))))
  let r12 := r11 ||| (p6 &&& shl64 player_mask (HEIGHT + 2))
  r12 &&& (fullBoardMask ^^^ b.board_mask)

/-- Embeds `BitBoard::opponent_winning_positions`. -/
def opponentWinningPositions (b : BitBoard) : Nat :=
  winningPositions b (b.player_mask ^^^ b.board_mask)

/-- Embeds `BitBoard::non_losing_moves`. -/
def nonLosingMoves (b : BitBoard) : Nat :=
  let possible := possibleMoves b
  let opp := opponentWinningPositions b
  let forced := possible &&& opp
  if forced ≠ 0 then
    if forced &&& (forced - 1) ≠ 0 then 0
    else forced &&& not64 (opp >>> 1)
  else possible &&& not64 (opp >>> 1)

/-- Embeds `BitBoard::move_score`. -/
def moveScore (b : BitBoard) (candidate : Nat) : Int :=
  (popcount (winningPositions b (b.player_mask ||| candidate)) : Int)

/-- Embeds `BitBoard::playable`. -/
def playable (b : BitBoard) (column : Nat) : Bool :=
  topMask column &&& b.board_mask = 0

/-- Embeds `BitBoard::play`. -/
def play (b : BitBoard) (move_bitmap : Nat) : BitBoard :=
  { player_mask := b.player_mask ^^^ b.board_mask
    board_mask := b.board_mask ||| move_bitmap
    num_moves := b.num_moves + 1 }

/-- Embeds `BitBoard::check_winning_move`. -/
def checkWinningMove (b : BitBoard) (column : Nat) : Bool :=
  let pos := b.player_mask ||| (add64 b.board_mask (bottomMask column) &&& columnMask column)
  -- horizontal
  let m1 := pos &&& (pos >>> (HEIGHT + 1))
  if m1 &&& (m1 >>> (2 * (HEIGHT + 1))) ≠ 0 then true
  else
    -- diagonal 1
    let m2 := pos &&& (pos >>> HEIGHT)
    if m2 &&& (m2 >>> (2 * HEIGHT)) ≠ 0 then true
    else
      -- diagonal 2
      let m3 := pos &&& (pos >>> (HEIGHT + 2))
      if m3 &&& (m3 >>> (2 * (HEIGHT + 2))) ≠ 0 then true
      else
        -- vertical
        let m4 := pos &&& (pos >>> 1)
        decide (m4 &&& (m4 >>> 2) ≠ 0)

/-- Embeds `BitBoard::key`. -/
def key (b : BitBoard) : Nat := add64 b.player_mask b.board_mask

/-- The move bitmap played by `BitBoard::from_moves` / `from_slice`
for a (0-indexed) column: the lowest empty square of that column. -/
def columnMoveBitmap (b : BitBoard) (column : Nat) : Nat :=
  add64 b.board_mask (shl64 1 (column * (HEIGHT + 1))) &&& columnMask column

/-- One step of `BitBoard::from_moves` / `from_slice`: play a column. -/
def playColumn (b : BitBoard) (column : Nat) : BitBoard :=
  play b (columnMoveBitmap b column)

/-- Embeds `char::to_digit(10)`. -/
def charToDigit (c : Char) : Option Nat :=
  if c.isDigit then some (c.toNat - 48) else none

/-- Loop body of `BitBoard::from_moves` over the remaining characters. -/
def fromMovesAux : BitBoard → List Char → Option BitBoard
  | b, [] => some b
  | b, c :: rest =>
    match charToDigit c with
    | some column1 =>
      if 1 ≤ column1 ∧ column1 ≤ WIDTH then
        let column := column1 - 1
        if playable b column then
          if checkWinningMove b column then none
          else fromMovesAux (playColumn b column) rest
        else none
      else none
    | none => none

/-- Embeds `BitBoard::from_moves`: build a board from a 1-indexed move string,
`none` on any invalid move. -/
def fromMoves (moves : String) : Option BitBoard :=
  fromMovesAux newBoard moves.data

/-- Inner row loop of `BitBoard::_huffman_code` for one column: append
`10`/`11` per tile bottom-to-top, then a `0` separator at the first
empty square (which breaks the loop). All code arithmetic is `u32`. -/
def huffColAux (b : BitBoard) (colMask : Nat) : Nat → List Nat → Nat
  | code, [] => code
  | code, row :: rest =>
    let rowMask := shl64 bottomMaskAll row
    let tileMask := colMask &&& rowMask
    if b.board_mask &&& tileMask = 0 then (code <<< 1) % M32
    else if b.player_mask &&& tileMask ≠ 0 then
      huffColAux b colMask ((code <<< 2) % M32 + 2) rest
    else
      huffColAux b colMask ((code <<< 2) % M32 + 3) rest

/-- Embeds `BitBoard::_huffman_code`: encode the board column by column
(right-to-left when `mirror` is set), then shift left once. -/
def huffmanCodeDir (b : BitBoard) (mirror : Bool) : Nat :=
  let cols := if mirror then (List.range WIDTH).reverse else List.range WIDTH
  let code := cols.foldl
    (fun code column => huffColAux b (columnMask column) code (List.range (HEIGHT + 1))) 0
  (code <<< 1) % M32

/-- Embeds `BitBoard::huffman_code`: the canonical fingerprint, the minimum of
the two scan directions. -/
def huffmanCode (b : BitBoard) : Nat :=
  min (huffmanCodeDir b false) (huffmanCodeDir b true)

end BitBoard

/-! ## Transposition table (`transposition_table.rs`) -/

/-- Embeds `TABLE_MAX_SIZE`: capacity of the transposition table in entries. -/
def TABLE_MAX_SIZE : Nat := (1 <<< 23) + 9

/-- A transposition table entry: 32-bit key and 8-bit value. -/
structure Entry where
  key : Nat
  value : Nat
deriving DecidableEq, Repr

/-- Embeds `TranspositionTableStorage`: a `Vec<Entry>` of length
`TABLE_MAX_SIZE`, modelled as its indexing function (every access in the
source is reduced modulo the length, hence in bounds). -/
structure TTStorage where
  entries : Nat → Entry

/-- Embeds `TranspositionTableStorage::set`. -/
def TTStorage.set (t : TTStorage) (k v : Nat) : TTStorage :=
  { entries := fun i => if i = k % TABLE_MAX_SIZE then ⟨low32 k, v⟩ else t.entries i }

/-- Embeds `TranspositionTableStorage::get`. -/
def TTStorage.get (t : TTStorage) (k : Nat) : Nat :=
  let e := t.entries (k % TABLE_MAX_SIZE)
  if e.key = low32 k then e.value else 0

/-- Embeds `TranspositionTableStorage::new`: all entries zeroed. -/
def ttEmpty : TTStorage := ⟨fun _ => ⟨0, 0⟩⟩

/-- Embeds `SharedTranspositionTable` (`lib.rs` variant): each slot stores the
key XOR-masked against the value. -/
structure STTStorage where
  entries : Nat → Entry

/-- Embeds `SharedTranspositionTable::set`. -/
def STTStorage.set (t : STTStorage) (k v : Nat) : STTStorage :=
  { entries := fun i => if i = k % TABLE_MAX_SIZE then ⟨low32 k ^^^ v, v⟩ else t.entries i }

/-- Embeds `SharedTranspositionTable::get`. -/
def STTStorage.get (t : STTStorage) (k : Nat) : Nat :=
  let e := t.entries (k % TABLE_MAX_SIZE)
  if e.key = low32 k ^^^ e.value then e.value else 0

/-- Embeds `SharedTranspositionTable::new`. -/
def sttEmpty : STTStorage := ⟨fun _ => ⟨0, 0⟩⟩

/-! ## Opening database (`opening_database.rs`) -/

/-- Embeds `DATABASE_DEPTH`. -/
def DATABASE_DEPTH : Nat := 12

/-- Embeds `DATABASE_NUM_POSITIONS`. -/
def DATABASE_NUM_POSITIONS : Nat := 4200899

/-- Embeds `OpeningDatabaseStorage`: two parallel `Vec`s of length
`DATABASE_NUM_POSITIONS` (fingerprints and scores), modelled as their
indexing functions; bounds checks appear at each access site. -/
structure OpeningDatabaseStorage where
  positions : Nat → Nat
  values : Nat → Int

/-- Embeds `self.positions.get(pos1).unwrap_or(&0)`: in-bounds read or `0`. -/
def posGet (s : OpeningDatabaseStorage) (i : Nat) : Nat :=
  if i < DATABASE_NUM_POSITIONS then s.positions i else 0

/-- The binary-search loop of `OpeningDatabaseStorage::get`. The `step`
schedule halves rounding up; index arithmetic wraps on 64-bit `usize`.
`Except.error` models the `self.values[pos1]` panic when the loop hits
`Equal` at an out-of-range index. -/
def getLoop (s : OpeningDatabaseStorage) (code : Nat) (step pos1 : Nat) : Except Unit Int :=
  if step = 0 then Except.ok (-1)
  else
    let step2 := if step ≠ 1 then (step + step % 2) / 2 else 0
    let code1 := posGet s pos1
    if code < code1 then getLoop s code step2 (wsub64 pos1 step2)
    else if code1 < code then getLoop s code step2 (add64 pos1 step2)
    else if pos1 < DATABASE_NUM_POSITIONS then Except.ok (s.values pos1)
    else Except.error ()
termination_by step
decreasing_by
  all_goals simp_wf
  all_goals split
  all_goals omega

/-- Embeds `OpeningDatabaseStorage::get`: binary search starting at the last
index, returning `-1` if the loop terminates without a hit. -/
def dbGet (s : OpeningDatabaseStorage) (code : Nat) : Except Unit Int :=
  getLoop s code (DATABASE_NUM_POSITIONS - 1) (DATABASE_NUM_POSITIONS - 1)

/-- Modelled from the spec: `OpeningDatabase::get`, the `Option`-returning
lookup that `Solver::negamax` calls (its definition is absent from the
sources; only its caller is present). Per the spec it binary-searches the
fingerprint and on hit returns the stored value transformed into the
solver's score space, signalling a miss (fallback to search) otherwise. -/
def odbLookup (s : OpeningDatabaseStorage) (code : Nat) : Option Int :=
  match dbGet s code with
  | Except.ok v =>
    if v = -1 then none
    else if 0 < v then some (21 - Int.tdiv (12 + (100 - v)) 2)
    else if v < 0 then some (-22 + Int.tdiv (12 + (100 + v)) 2)
    else some 0
  | Except.error _ => none

/-! ## Solver (`solver.rs`, and the `lib.rs` variant) -/

/-- Embeds `MIN_SCORE` (`solver.rs` / `lib.rs`): evaluates to `-18`. -/
def MIN_SCORE : Int := Int.tdiv (-((WIDTH * HEIGHT : Nat) : Int)) 2 + 3

/-- Embeds `MAX_SCORE` (`solver.rs` / `lib.rs`): evaluates to `18`. -/
def MAX_SCORE : Int := Int.tdiv (((WIDTH * HEIGHT : Nat) : Int) + 1) 2 - 3

/-- Embeds `move_order()`: centre-outward column ordering. -/
def moveOrder : List Nat :=
  (List.range WIDTH).map
    (fun i => WIDTH / 2 + i % 2 * (i / 2 + 1) - (1 - i % 2) * (i / 2))

/-- Embeds `MoveSorter::push` (`solver.rs`): insertion into a list kept in
ascending heuristic-score order; entries are (bitmap, column, score). -/
def sorterPush (v : Nat × Nat × Int) : List (Nat × Nat × Int) → List (Nat × Nat × Int)
  | [] => [v]
  | x :: xs => if v.2.2 < x.2.2 then v :: x :: xs else x :: sorterPush v xs

/-- The move-collection loop of `Solver::negamax` (`solver.rs`): columns
visited in reverse centre-outward order, candidates filtered through the
non-losing mask and playability. -/
def buildMoves (b : BitBoard) (nl : Nat) : List (Nat × Nat × Int) :=
  (List.range WIDTH).reverse.foldl
    (fun ms i =>
      let column := moveOrder.getD i 0
      let candidate := nl &&& BitBoard.columnMask column
      if candidate ≠ 0 ∧ b.playable column then
        sorterPush (candidate, column, b.moveScore candidate) ms
      else ms)
    []

/-- The recursion loop of `Solver::negamax` (`solver.rs`): iterate the
sorted moves (descending score, so the sorted list reversed), searching
each child with the flipped window; `child` is the next-depth search.
Returns the score, the updated table and the searched node count. -/
def searchMoves (child : BitBoard → TTStorage → Int → Int → Option (Int × TTStorage × Nat))
    (b : BitBoard) (k : Nat) (beta : Int) :
    List (Nat × Nat × Int) → Int → TTStorage → Nat → Option (Int × TTStorage × Nat)
  | [], alpha, tt, nodes =>
    some (alpha, tt.set b.key (toU8 (alpha - MIN_SCORE + 1)), nodes)
  | m :: rest, alpha, tt, nodes =>
    match child (b.play m.1) tt (-beta) (-alpha) with
    | none => none
    | some (s, tt2, childNodes) =>
      let score := -s
      if beta ≤ score then
        some (score, tt2.set k (toU8 (score + MAX_SCORE - 2 * MIN_SCORE + 2)), nodes + childNodes)
      else if alpha < score then searchMoves child b k beta rest score tt2 (nodes + childNodes)
      else searchMoves child b k beta rest alpha tt2 (nodes + childNodes)

/-- Embeds `Solver::negamax` after the transposition-table reads: clamp `beta`
to the upper bound and explore the children. -/
def negamaxAfterTT (child : BitBoard → TTStorage → Int → Int → Option (Int × TTStorage × Nat))
    (b : BitBoard) (nl k : Nat) (alpha beta mx : Int) (tt : TTStorage) :
    Option (Int × TTStorage × Nat) :=
  if mx < beta then
    if alpha ≥ mx then some (mx, tt, 1)
    else searchMoves child b k mx (buildMoves b nl).reverse alpha tt 1
  else searchMoves child b k beta (buildMoves b nl).reverse alpha tt 1

/-- The transposition-table bound-tightening step of `Solver::negamax`. -/
def negamaxTT (child : BitBoard → TTStorage → Int → Int → Option (Int × TTStorage × Nat))
    (b : BitBoard) (nl k : Nat) (alpha beta mx0 : Int) (tt : TTStorage) :
    Option (Int × TTStorage × Nat) :=
  let v : Int := ((tt.get k : Nat) : Int)
  if v ≠ 0 then
    if v > MAX_SCORE - MIN_SCORE + 1 then
      let mn := v + 2 * MIN_SCORE - MAX_SCORE - 2
      if alpha < mn then
        if mn ≥ beta then some (mn, tt, 1)
        else negamaxAfterTT child b nl k mn beta (v + MIN_SCORE - 1) tt
      else negamaxAfterTT child b nl k alpha beta (v + MIN_SCORE - 1) tt
    else
      let mxu := v + MIN_SCORE - 1
      if beta > mxu then
        if alpha ≥ mxu then some (mxu, tt, 1)
        else negamaxAfterTT child b nl k alpha mxu (v + MIN_SCORE - 1) tt
      else negamaxAfterTT child b nl k alpha beta (v + MIN_SCORE - 1) tt
  else negamaxAfterTT child b nl k alpha beta mx0 tt

/-- Embeds `Solver::negamax` (`solver.rs`), with explicit recursion fuel
(`none` = fuel exhausted; the solver's recursion depth is bounded by the
number of empty squares). Checks, in order: immediate win, anti-loss,
draw, opening database, transposition table, then the child search. -/
def negamax (db : Option OpeningDatabaseStorage) :
    Nat → BitBoard → TTStorage → Int → Int → Option (Int × TTStorage × Nat)
  | 0, _, _, _, _ => none
  | fuel + 1, b, tt, alpha, beta =>
    if (List.range WIDTH).any (fun c => b.playable c && b.checkWinningMove c) then
      some ((((WIDTH * HEIGHT + 1 - b.num_moves) / 2 : Nat) : Int), tt, 1)
    else
      let nl := b.nonLosingMoves
      if nl = 0 then
        some (Int.tdiv (-(((WIDTH * HEIGHT : Nat) : Int) - (b.num_moves : Int))) 2, tt, 1)
      else if b.num_moves = WIDTH * HEIGHT then some (0, tt, 1)
      else
        match (if b.num_moves = DATABASE_DEPTH then
                 db.bind (fun d => odbLookup d b.huffmanCode)
               else none) with
        | some score => some (score, tt, 1)
        | none =>
          negamaxTT (negamax db fuel) b nl b.key alpha beta
            (((WIDTH * HEIGHT - 1 - b.num_moves) / 2 : Nat) : Int) tt

/-- Embeds `MoveSorter::push` (`lib.rs` variant): entries are (bitmap, score). -/
def sorterPushLib (v : Nat × Int) : List (Nat × Int) → List (Nat × Int)
  | [] => [v]
  | x :: xs => if v.2 < x.2 then v :: x :: xs else x :: sorterPushLib v xs

/-- The move-collection loop of the `lib.rs` `Solver::negamax` (no
playability filter, no column tracking). -/
def buildMovesLib (b : BitBoard) (nl : Nat) : List (Nat × Int) :=
  (List.range WIDTH).reverse.foldl
    (fun ms i =>
      let candidate := nl &&& BitBoard.columnMask (moveOrder.getD i 0)
      if candidate ≠ 0 then sorterPushLib (candidate, b.moveScore candidate) ms
      else ms)
    []

/-- The recursion loop of the `lib.rs` `Solver::negamax`. -/
def searchMovesLib (child : BitBoard → STTStorage → Int → Int → Option (Int × STTStorage × Nat))
    (b : BitBoard) (k : Nat) (beta : Int) :
    List (Nat × Int) → Int → STTStorage → Nat → Option (Int × STTStorage × Nat)
  | [], alpha, tt, nodes =>
    some (alpha, tt.set b.key (toU8 (alpha - MIN_SCORE + 1)), nodes)
  | m :: rest, alpha, tt, nodes =>
    match child (b.play m.1) tt (-beta) (-alpha) with
    | none => none
    | some (s, tt2, childNodes) =>
      let score := -s
      if beta ≤ score then
        some (score, tt2.set k (toU8 (score + MAX_SCORE - 2 * MIN_SCORE + 2)), nodes + childNodes)
      else if alpha < score then searchMovesLib child b k beta rest score tt2 (nodes + childNodes)
      else searchMovesLib child b k beta rest alpha tt2 (nodes + childNodes)

/-- Embeds the `lib.rs` `Solver::negamax` after the transposition-table reads. -/
def negamaxLibAfterTT (child : BitBoard → STTStorage → Int → Int → Option (Int × STTStorage × Nat))
    (b : BitBoard) (nl k : Nat) (alpha beta mx : Int) (tt : STTStorage) :
    Option (Int × STTStorage × Nat) :=
  if mx < beta then
    if alpha ≥ mx then some (mx, tt, 1)
    else searchMovesLib child b k mx (buildMovesLib b nl).reverse alpha tt 1
  else searchMovesLib child b k beta (buildMovesLib b nl).reverse alpha tt 1

/-- The transposition-table step of the `lib.rs` `Solver::negamax`. -/
def negamaxLibTT (child : BitBoard → STTStorage → Int → Int → Option (Int × STTStorage × Nat))
    (b : BitBoard) (nl k : Nat) (alpha beta mx0 : Int) (tt : STTStorage) :
    Option (Int × STTStorage × Nat) :=
  let v : Int := ((tt.get k : Nat) : Int)
  if v ≠ 0 then
    if v > MAX_SCORE - MIN_SCORE + 1 then
      let mn := v + 2 * MIN_SCORE - MAX_SCORE - 2
      if alpha < mn then
        if mn ≥ beta then some (mn, tt, 1)
        else negamaxLibAfterTT child b nl k mn beta (v + MIN_SCORE - 1) tt
      else negamaxLibAfterTT child b nl k alpha beta (v + MIN_SCORE - 1) tt
    else
      let mxu := v + MIN_SCORE - 1
      if beta > mxu then
        if alpha ≥ mxu then some (mxu, tt, 1)
        else negamaxLibAfterTT child b nl k alpha mxu (v + MIN_SCORE - 1) tt
      else negamaxLibAfterTT child b nl k alpha beta (v + MIN_SCORE - 1) tt
  else negamaxLibAfterTT child b nl k alpha beta mx0 tt

/-- Embeds `Solver::negamax` as defined in `lib.rs`: identical to the
`solver.rs` routine except that the anti-loss and draw checks come
*before* the immediate-win check, there is no opening-database lookup,
and the shared (XOR-interlocked) transposition table is used. -/
def negamaxLib :
    Nat → BitBoard → STTStorage → Int → Int → Option (Int × STTStorage × Nat)
  | 0, _, _, _, _ => none
  | fuel + 1, b, tt, alpha, beta =>
    let nl := b.nonLosingMoves
    if nl = 0 then
      some (Int.tdiv (-(((WIDTH * HEIGHT : Nat) : Int) - (b.num_moves : Int))) 2, tt, 1)
    else if b.num_moves = WIDTH * HEIGHT then some (0, tt, 1)
    else if (List.range WIDTH).any (fun c => b.playable c && b.checkWinningMove c) then
      some ((((WIDTH * HEIGHT + 1 - b.num_moves) / 2 : Nat) : Int), tt, 1)
    else
      negamaxLibTT (negamaxLib fuel) b nl b.key alpha beta
        (((WIDTH * HEIGHT - 1 - b.num_moves) / 2 : Nat) : Int) tt

/-! ## Mirroring, legality, and concrete instances -/

/-- Base-128 digit `c` of a mask: the 7-bit field of column `c`
(6 cell rows plus the guard bit). -/
def digit (x c : Nat) : Nat := x / 128 ^ c % 128

/-- A mask from its list of base-128 column fields (least significant
column first). -/
def fromDigits : List Nat → Nat
  | [] => 0
  | d :: ds => d + 128 * fromDigits ds

/-- The board mask with its columns reflected left-to-right: column `c`
of the result is column `WIDTH - 1 - c` of the argument. -/
def mirrorMask (m : Nat) : Nat :=
  fromDigits ((List.range WIDTH).reverse.map (digit m))

/-- The left-right mirrored board. -/
def mirrorBoard (b : BitBoard) : BitBoard :=
  ⟨mirrorMask b.player_mask, mirrorMask b.board_mask, b.num_moves⟩

/-- Legal positions: reachable from the empty board by playing
in-range, non-full columns, never past a completed win — exactly the
move sequences accepted by `BitBoard::from_moves` / `from_slice`. -/
inductive Reachable : BitBoard → Prop where
  | empty : Reachable BitBoard.newBoard
  | step : ∀ {b : BitBoard} (column : Nat), Reachable b → column < WIDTH →
      BitBoard.playable b column = true → BitBoard.checkWinningMove b column = false →
      Reachable (BitBoard.playColumn b column)

/-- The move string of the huffman-code test vector. -/
def movesHuffman : String := "22244444"

/-- Move string of a position (6 plies) where the mover has an immediate
vertical win in column 1 while the opponent holds a double horizontal
threat: plays 1-indexed columns 1,3,1,4,1,5. -/
def movesDoubleThreat : String := "131415"

/-- The board reached by `movesDoubleThreat`: the mover's tiles fill the
bottom of column 0, the opponent's occupy the bottom row of columns
2, 3 and 4. -/
def boardDoubleThreat : BitBoard := ⟨7, 270548999, 6⟩

/-- A conforming opening-database storage: strictly ascending nonzero
fingerprints `i + 1`, every stored score `5`. -/
def dbLinear : OpeningDatabaseStorage := ⟨fun i => i + 1, fun _ => 5⟩

/-- A conforming opening-database storage whose fingerprints are
`i + 2`, so the nonzero code `1` is absent. -/
def dbShift : OpeningDatabaseStorage := ⟨fun i => i + 2, fun _ => 3⟩

/-- A conforming opening-database storage with every stored score `-1`. -/
def dbNegOne : OpeningDatabaseStorage := ⟨fun i => i + 1, fun _ => -1⟩

/-- Structural well-formedness of a position's masks: every column of
`board_mask` is a bottom-justified run `2^h - 1` (`h ≤ 6` tiles), the
player's tiles in that column lie inside it, and no bits lie outside the
seven 7-bit column fields. -/
def WF (b : BitBoard) : Prop :=
  b.player_mask < 128 ^ 7 ∧ b.board_mask < 128 ^ 7 ∧
  ∀ c, c < 7 → ∃ h, h ≤ 6 ∧ digit b.board_mask c = 2 ^ h - 1 ∧ digit b.player_mask c < 2 ^ h

/-! ## Theorems -/

/-- If a number has two distinct bits set, clearing its lowest set bit
(`f &&& (f - 1)`) leaves it nonzero. -/
theorem and_pred_ne_zero_of_two_testBits {f i j : Nat} (hij : i < j)
    (hi : f.testBit i = true) (hj : f.testBit j = true) :
    f &&& (f - 1) ≠ 0 := by
  have hmod : f % 2 ^ j ≠ 0 := by
    intro h0
    have h1 := Nat.testBit_mod_two_pow f j i
    rw [h0] at h1
    simp [Nat.zero_testBit, hij, hi] at h1
  have hr1 : 1 ≤ f % 2 ^ j := Nat.one_le_iff_ne_zero.mpr hmod
  have h2 : f % 2 ^ j < 2 ^ j := Nat.mod_lt _ (Nat.pos_pow_of_pos j (by omega))
  have hpos : 0 < 2 ^ j := Nat.pos_pow_of_pos j (by omega)
  have hdiv : (f - 1) / 2 ^ j = f / 2 ^ j := by
    conv_lhs => rw [← Nat.div_add_mod f (2 ^ j)]
    rw [Nat.add_sub_assoc hr1, Nat.mul_add_div hpos,
      Nat.div_eq_of_lt (show f % 2 ^ j - 1 < 2 ^ j by omega), Nat.add_zero]
  have hj2 : (f - 1).testBit j = true := by
    rw [Nat.testBit_to_div_mod] at hj ⊢
    rwa [hdiv]
  intro h0
  have h4 := congrArg (fun x => Nat.testBit x j) h0
  simp [Nat.testBit_land, hj, hj2, Nat.zero_testBit] at h4

/-- A number with a set bit is nonzero. -/
theorem ne_zero_of_testBit {f i : Nat} (hi : f.testBit i = true) : f ≠ 0 := by
  intro h0
  rw [h0, Nat.zero_testBit] at hi
  exact Bool.noConfusion hi

/-- C5: `non_losing_moves()` only returns bits of `possible_moves()`,
and whenever the forced mask `possible_moves() & opponent_winning_positions()`
has more than one set bit it returns `0`. -/
theorem c5_non_losing_moves_subset_and_double_forced (b : BitBoard) :
    (∀ i, (BitBoard.nonLosingMoves b).testBit i = true →
      (BitBoard.possibleMoves b).testBit i = true) ∧
    (∀ i j, i ≠ j →
      (BitBoard.possibleMoves b &&& BitBoard.opponentWinningPositions b).testBit i = true →
      (BitBoard.possibleMoves b &&& BitBoard.opponentWinningPositions b).testBit j = true →
      BitBoard.nonLosingMoves b = 0) := by
  constructor
  · intro i hi
    rw [BitBoard.nonLosingMoves] at hi
    by_cases hf : BitBoard.possibleMoves b &&& BitBoard.opponentWinningPositions b ≠ 0
    · rw [if_pos hf] at hi
      by_cases hd : (BitBoard.possibleMoves b &&& BitBoard.opponentWinningPositions b) &&&
          ((BitBoard.possibleMoves b &&& BitBoard.opponentWinningPositions b) - 1) ≠ 0
      · rw [if_pos hd] at hi
        simp [Nat.zero_testBit] at hi
      · rw [if_neg hd] at hi
        simp only [Nat.testBit_land, Bool.and_eq_true] at hi
        exact hi.1.1
    · rw [if_neg hf] at hi
      simp only [Nat.testBit_land, Bool.and_eq_true] at hi
      exact hi.1
  · intro i j hij hi hj
    have hf : BitBoard.possibleMoves b &&& BitBoard.opponentWinningPositions b ≠ 0 :=
      ne_zero_of_testBit hi
    have hd : (BitBoard.possibleMoves b &&& BitBoard.opponentWinningPositions b) &&&
        ((BitBoard.possibleMoves b &&& BitBoard.opponentWinningPositions b) - 1) ≠ 0 := by
      rcases Nat.lt_or_ge i j with h | h
      · exact and_pred_ne_zero_of_two_testBits h hi hj
      · exact and_pred_ne_zero_of_two_testBits (by omega) hj hi
    rw [BitBoard.nonLosingMoves, if_pos hf, if_pos hd]

/-- Witness for C5 at the double-threat position: the forced mask has
bits 7 and 35, so `non_losing_moves` is `0`; and at the empty board bit 0
of `non_losing_moves` is a bit of `possible_moves`. -/
theorem c5_witness :
    BitBoard.nonLosingMoves boardDoubleThreat = 0 ∧
    (BitBoard.possibleMoves BitBoard.newBoard).testBit 0 = true :=
  ⟨(c5_non_losing_moves_subset_and_double_forced boardDoubleThreat).2 7 35
      (by decide) (by decide) (by decide),
    (c5_non_losing_moves_subset_and_double_forced BitBoard.newBoard).1 0 (by decide)⟩

/-- Entries in slots untouched by a sequence of `set`s are preserved. -/
theorem tt_foldl_entries_eq (i : Nat) :
    ∀ (ops : List (Nat × Nat)) (t : TTStorage),
      (∀ p ∈ ops, p.1 % TABLE_MAX_SIZE ≠ i) →
      (ops.foldl (fun acc p => acc.set p.1 p.2) t).entries i = t.entries i := by
  intro ops
  induction ops with
  | nil => intro t _; rfl
  | cons p rest ih =>
    intro t hops
    have h1 : (TTStorage.set t p.1 p.2).entries i = t.entries i := by
      rw [TTStorage.set]
      exact if_neg (fun h => hops p (List.mem_cons_self p rest) (by omega))
    rw [List.foldl_cons, ih (t.set p.1 p.2) (fun q hq => hops q (List.mem_cons_of_mem p hq)), h1]

/-- C6: after `set(k, v)` with `v ≠ 0`, `v ≤ 255`, a `get(k)` returns `v`
provided no intervening `set` mapped to the same slot index. -/
theorem c6_tt_round_trip (t : TTStorage) (k v : Nat) (ops : List (Nat × Nat))
    (_hv : v ≠ 0) (_hv255 : v ≤ 255)
    (hops : ∀ p ∈ ops, p.1 % TABLE_MAX_SIZE ≠ k % TABLE_MAX_SIZE) :
    TTStorage.get (ops.foldl (fun acc p => acc.set p.1 p.2) (t.set k v)) k = v := by
  rw [TTStorage.get]
  simp only [tt_foldl_entries_eq (k % TABLE_MAX_SIZE) ops (t.set k v) hops]
  rw [TTStorage.set]
  simp

/-- Witness for C6: store 7 at key 3, then store 9 at key 4 (a different
slot); `get 3` returns 7. -/
theorem c6_witness :
    TTStorage.get
      (([((4 : Nat), (9 : Nat))]).foldl (fun acc p => acc.set p.1 p.2) (ttEmpty.set 3 7)) 3 = 7 :=
  c6_tt_round_trip ttEmpty 3 7 [(4, 9)] (by decide) (by decide) (by decide)

/-- C9 counterexample: `huffman_code()` on the board of "22244444" does
not return the test vector `0b010111000111011101100000`; since the
canonical code is the minimum over both scan directions, the mirrored
scan wins here. -/
theorem c9_huffman_counterexample :
    (BitBoard.fromMoves movesHuffman).map BitBoard.huffmanCode ≠
      some 0b010111000111011101100000 := by decide

/-- C9 amended: construction from "22244444" succeeds and
`huffman_code()` returns `0b000111011101100101110000` (the minimum of
the two scan directions); the left-to-right scan alone produces the
spec's value `0b010111000111011101100000`. -/
theorem c9_huffman_amended :
    (BitBoard.fromMoves movesHuffman).map BitBoard.huffmanCode =
      some 0b000111011101100101110000 ∧
    (BitBoard.fromMoves movesHuffman).map (fun b => BitBoard.huffmanCodeDir b false) =
      some 0b010111000111011101100000 := ⟨rfl, rfl⟩

/-- C2 (code bug): after the moves "131415" the mover has an immediate
winning move (column 0) while the opponent holds two threats. The
`solver.rs` `negamax`, whose immediate-win check comes first, returns
`(W*H + 1 - num_moves) / 2 = 18` for any window and table, as the claim
states; the `lib.rs` `negamax` runs its anti-loss check first and
returns the loss score `-18` instead. -/
theorem c2_win_check_order :
    BitBoard.fromMoves movesDoubleThreat = some boardDoubleThreat ∧
    (∃ c, c < WIDTH ∧ boardDoubleThreat.playable c = true ∧
      boardDoubleThreat.checkWinningMove c = true) ∧
    (∀ (alpha beta : Int) (tt : TTStorage),
      negamax none 1 boardDoubleThreat tt alpha beta =
        some ((((WIDTH * HEIGHT + 1 - boardDoubleThreat.num_moves) / 2 : Nat) : Int), tt, 1)) ∧
    (∀ (alpha beta : Int) (tt : STTStorage),
      negamaxLib 1 boardDoubleThreat tt alpha beta = some (-18, tt, 1)) ∧
    ((((WIDTH * HEIGHT + 1 - boardDoubleThreat.num_moves) / 2 : Nat) : Int) ≠ -18) := by
  refine ⟨rfl, ⟨0, by decide, by decide, by decide⟩, fun alpha beta tt => rfl,
    fun alpha beta tt => rfl, by decide⟩

/-- Power rewrite: `128 ^ c = 2 ^ (7 * c)`. -/
theorem pow128_eq (c : Nat) : (128 : Nat) ^ c = 2 ^ (7 * c) := by
  rw [show (128 : Nat) = 2 ^ 7 by norm_num, ← pow_mul]

/-- Column digits are 7-bit fields. -/
theorem digit_lt (x c : Nat) : digit x c < 128 :=
  Nat.mod_lt _ (by norm_num)

/-- Bit `r` of column digit `c` is bit `7 * c + r` of the mask. -/
theorem testBit_digit (x c r : Nat) :
    (digit x c).testBit r = (decide (r < 7) && x.testBit (7 * c + r)) := by
  rw [digit, pow128_eq, show (128 : Nat) = 2 ^ 7 by norm_num,
    Nat.testBit_mod_two_pow, ← Nat.shiftRight_eq_div_pow, Nat.testBit_shiftRight]

/-- Digit `0` is the low 7-bit field. -/
theorem digit_zero (x : Nat) : digit x 0 = x % 128 := by
  simp [digit]

/-- Digits shift down under division by the base. -/
theorem digit_succ (x c : Nat) : digit x (c + 1) = digit (x / 128) c := by
  rw [digit, digit, Nat.div_div_eq_div_mul, ← pow_succ']

/-- Reading digits of a digit-list value. -/
theorem digit_fromDigits :
    ∀ (L : List Nat), (∀ d ∈ L, d < 128) → ∀ c, digit (fromDigits L) c = L.getD c 0 := by
  intro L
  induction L with
  | nil =>
    intro _ c
    simp [fromDigits, digit, Nat.zero_div]
  | cons d ds ih =>
    intro hL c
    have hd : d < 128 := hL d (List.mem_cons_self d ds)
    match c with
    | 0 =>
      rw [digit_zero, fromDigits, Nat.add_mul_mod_self_left, Nat.mod_eq_of_lt hd]
      rfl
    | c + 1 =>
      rw [digit_succ, fromDigits, Nat.add_mul_div_left d _ (by norm_num),
        Nat.div_eq_of_lt hd, Nat.zero_add,
        ih (fun e he => hL e (List.mem_cons_of_mem d he)) c]
      rfl

/-- A value all of whose digits below `k` agree with another value below
`128 ^ k` is that value. -/
theorem eq_of_digit_eq :
    ∀ (k x y : Nat), x < 128 ^ k → y < 128 ^ k →
      (∀ c, c < k → digit x c = digit y c) → x = y := by
  intro k
  induction k with
  | zero =>
    intro x y hx hy _
    simp only [pow_zero, Nat.lt_one_iff] at hx hy
    rw [hx, hy]
  | succ k ih =>
    intro x y hx hy hdig
    have h0 : x % 128 = y % 128 := by
      have := hdig 0 (Nat.succ_pos k)
      rwa [digit_zero, digit_zero] at this
    have hq : x / 128 = y / 128 := by
      refine ih (x / 128) (y / 128) ?_ ?_ ?_
      · rw [Nat.div_lt_iff_lt_mul (by norm_num), ← pow_succ]
        exact hx
      · rw [Nat.div_lt_iff_lt_mul (by norm_num), ← pow_succ]
        exact hy
      · intro c hc
        rw [← digit_succ, ← digit_succ]
        exact hdig (c + 1) (by omega)
    omega

/-- Digitwise addition without carries: if every pair of digits sums
below the base, addition acts digitwise and stays below `128 ^ k`. -/
theorem add_digits :
    ∀ (k x y : Nat), x < 128 ^ k → y < 128 ^ k →
      (∀ c, c < k → digit x c + digit y c < 128) →
      x + y < 128 ^ k ∧ ∀ c, c < k → digit (x + y) c = digit x c + digit y c := by
  intro k
  induction k with
  | zero =>
    intro x y hx hy _
    simp only [pow_zero, Nat.lt_one_iff] at hx hy
    refine ⟨by simp [hx, hy], fun c hc => by omega⟩
  | succ k ih =>
    intro x y hx hy hdig
    have h0 : x % 128 + y % 128 < 128 := by
      have := hdig 0 (Nat.succ_pos k)
      rwa [digit_zero, digit_zero] at this
    have hxq : x / 128 < 128 ^ k := by
      rw [Nat.div_lt_iff_lt_mul (by norm_num), ← pow_succ]; exact hx
    have hyq : y / 128 < 128 ^ k := by
      rw [Nat.div_lt_iff_lt_mul (by norm_num), ← pow_succ]; exact hy
    have hdigq : ∀ c, c < k → digit (x / 128) c + digit (y / 128) c < 128 := by
      intro c hc
      rw [← digit_succ, ← digit_succ]
      exact hdig (c + 1) (by omega)
    obtain ⟨hlt, hdigs⟩ := ih (x / 128) (y / 128) hxq hyq hdigq
    have hsq : (x + y) / 128 = x / 128 + y / 128 := by omega
    have hsm : (x + y) % 128 = x % 128 + y % 128 := by omega
    constructor
    · have h128 : (128 : Nat) ^ (k + 1) = 128 ^ k * 128 := pow_succ 128 k
      omega
    · intro c hc
      match c with
      | 0 => rw [digit_zero, digit_zero, digit_zero, hsm]
      | c + 1 =>
        rw [digit_succ, digit_succ, digit_succ, hsq, hdigs c (by omega)]

/-- The digits of `d * 128 ^ c` for `d < 128`: `d` at position `c`. -/
theorem digit_single (d c c2 : Nat) (hd : d < 128) :
    digit (d * 128 ^ c) c2 = if c2 = c then d else 0 := by
  rcases Nat.lt_trichotomy c2 c with h | h | h
  · rw [if_neg (by omega), digit]
    have hsplit : d * 128 ^ c = d * 128 ^ (c - c2) * 128 ^ c2 := by
      rw [Nat.mul_assoc, ← pow_add]
      congr 2
      omega
    rw [hsplit, Nat.mul_div_cancel _ (by positivity)]
    have hout : d * 128 ^ (c - c2) = d * 128 ^ (c - c2 - 1) * 128 := by
      rw [Nat.mul_assoc, ← pow_succ]
      congr 2
      omega
    rw [hout, Nat.mul_mod_left]
  · subst h
    rw [if_pos rfl, digit, Nat.mul_div_cancel _ (by positivity), Nat.mod_eq_of_lt hd]
  · rw [if_neg (by omega), digit, Nat.div_eq_of_lt ?bound, Nat.zero_mod]
    case bound =>
      calc d * 128 ^ c < 128 * 128 ^ c :=
            (Nat.mul_lt_mul_right (by positivity)).mpr hd
        _ = 128 ^ (c + 1) := (pow_succ' 128 c).symm
        _ ≤ 128 ^ c2 := Nat.pow_le_pow_right (by norm_num) (by omega)

/-- Bitwise or acts digitwise. -/
theorem digit_lor (x y c : Nat) : digit (x ||| y) c = digit x c ||| digit y c := by
  apply Nat.eq_of_testBit_eq
  intro r
  rw [Nat.testBit_lor, testBit_digit, testBit_digit, testBit_digit, Nat.testBit_lor]
  cases Nat.decLt r 7 with
  | isTrue h => simp [h]
  | isFalse h => simp [h]

/-- Bitwise xor acts digitwise. -/
theorem digit_xor (x y c : Nat) : digit (x ^^^ y) c = digit x c ^^^ digit y c := by
  apply Nat.eq_of_testBit_eq
  intro r
  rw [Nat.testBit_xor, testBit_digit, testBit_digit, testBit_digit, Nat.testBit_xor]
  cases Nat.decLt r 7 with
  | isTrue h => simp [h]
  | isFalse h => simp [h]

/-- Column `c` of a mirrored mask is column `6 - c` of the original. -/
theorem digit_mirrorMask (m c : Nat) (hc : c < 7) :
    digit (mirrorMask m) c = digit m (6 - c) := by
  have hL : ∀ d ∈ (List.range WIDTH).reverse.map (digit m), d < 128 := by
    intro d hd
    obtain ⟨c2, _, rfl⟩ := List.mem_map.mp hd
    exact digit_lt m c2
  rw [mirrorMask, digit_fromDigits _ hL c]
  have hLe : (List.range WIDTH).reverse.map (digit m) =
      [digit m 6, digit m 5, digit m 4, digit m 3, digit m 2, digit m 1, digit m 0] := rfl
  rw [hLe]
  interval_cases c <;> rfl

/-- Bit `7 * c + r` of a mirrored mask is bit `7 * (6 - c) + r` of the
original mask. -/
theorem testBit_mirrorMask (m c r : Nat) (hc : c < 7) (hr : r < 7) :
    (mirrorMask m).testBit (7 * c + r) = m.testBit (7 * (6 - c) + r) := by
  have h1 := testBit_digit (mirrorMask m) c r
  have h2 := testBit_digit m (6 - c) r
  rw [digit_mirrorMask m c hc] at h1
  rw [decide_eq_true hr, Bool.true_and] at h1 h2
  exact h1.symm.trans h2

/-- A conjunction with a power of two is zero exactly when the bit is
unset. -/
theorem and_two_pow_eq_zero_iff (x i : Nat) : x &&& 2 ^ i = 0 ↔ x.testBit i = false := by
  rw [Nat.and_two_pow]
  cases h : x.testBit i <;> simp

/-- The tile mask probed by the huffman row loop is the single cell bit
(or zero in the guard row). -/
theorem tile_single :
    ∀ col, col < 7 → ∀ row, row < 7 →
      BitBoard.columnMask col &&& shl64 BitBoard.bottomMaskAll row =
        if row < 6 then 2 ^ (7 * col + row) else 0 := by decide

/-- The huffman row loop reads column `col` of the mirrored board exactly
as it reads column `6 - col` of the original board. -/
theorem huffCol_mirror (b : BitBoard) (col : Nat) (hcol : col < 7) :
    ∀ rows : List Nat, (∀ r ∈ rows, r < 7) → ∀ code,
      BitBoard.huffColAux (mirrorBoard b) (BitBoard.columnMask col) code rows =
      BitBoard.huffColAux b (BitBoard.columnMask (6 - col)) code rows := by
  intro rows
  induction rows with
  | nil => intro _ code; rfl
  | cons r rest ih =>
    intro hrows code
    have hr : r < 7 := hrows r (List.mem_cons_self r rest)
    have hrest : ∀ q ∈ rest, q < 7 := fun q hq => hrows q (List.mem_cons_of_mem r hq)
    have hcol2 : 6 - col < 7 := by omega
    by_cases hr6 : r < 6
    · have t1 : BitBoard.columnMask col &&& shl64 BitBoard.bottomMaskAll r =
          2 ^ (7 * col + r) := by rw [tile_single col hcol r hr, if_pos hr6]
      have t2 : BitBoard.columnMask (6 - col) &&& shl64 BitBoard.bottomMaskAll r =
          2 ^ (7 * (6 - col) + r) := by rw [tile_single (6 - col) hcol2 r hr, if_pos hr6]
      have e1 : (mirrorMask b.board_mask &&&
            (BitBoard.columnMask col &&& shl64 BitBoard.bottomMaskAll r) = 0) ↔
          (b.board_mask &&& (BitBoard.columnMask (6 - col) &&& shl64 BitBoard.bottomMaskAll r) = 0) := by
        rw [t1, t2, and_two_pow_eq_zero_iff, and_two_pow_eq_zero_iff,
          testBit_mirrorMask b.board_mask col r hcol hr]
      have e2 : (mirrorMask b.player_mask &&&
            (BitBoard.columnMask col &&& shl64 BitBoard.bottomMaskAll r) = 0) ↔
          (b.player_mask &&& (BitBoard.columnMask (6 - col) &&& shl64 BitBoard.bottomMaskAll r) = 0) := by
        rw [t1, t2, and_two_pow_eq_zero_iff, and_two_pow_eq_zero_iff,
          testBit_mirrorMask b.player_mask col r hcol hr]
      rw [BitBoard.huffColAux, BitBoard.huffColAux]
      simp only [mirrorBoard] at e1 e2 ⊢
      by_cases hb : b.board_mask &&& (BitBoard.columnMask (6 - col) &&& shl64 BitBoard.bottomMaskAll r) = 0
      · rw [if_pos (e1.mpr hb), if_pos hb]
      · rw [if_neg (fun h => hb (e1.mp h)), if_neg hb]
        by_cases hp : b.player_mask &&& (BitBoard.columnMask (6 - col) &&& shl64 BitBoard.bottomMaskAll r) ≠ 0
        · rw [if_pos (fun h => hp (e2.mp h)), if_pos hp]
          exact ih hrest _
        · rw [if_neg (fun h => hp (fun h2 => h (e2.mpr h2))), if_neg hp]
          exact ih hrest _
    · have hr6e : r = 6 := by omega
      have t1 : BitBoard.columnMask col &&& shl64 BitBoard.bottomMaskAll r = 0 := by
        rw [tile_single col hcol r hr, if_neg hr6]
      have t2 : BitBoard.columnMask (6 - col) &&& shl64 BitBoard.bottomMaskAll r = 0 := by
        rw [tile_single (6 - col) hcol2 r hr, if_neg hr6]
      rw [BitBoard.huffColAux, BitBoard.huffColAux]
      simp only [mirrorBoard, t1, t2, Nat.and_zero]
      simp

/-- The left-to-right scan of the mirrored board is the right-to-left
scan of the original. -/
theorem huffmanCodeDir_mirror_false (b : BitBoard) :
    BitBoard.huffmanCodeDir (mirrorBoard b) false = BitBoard.huffmanCodeDir b true := by
  rw [BitBoard.huffmanCodeDir, BitBoard.huffmanCodeDir]
  simp only [Bool.false_eq_true, if_false, if_true,
    show List.range WIDTH = [0, 1, 2, 3, 4, 5, 6] from rfl,
    show ([0, 1, 2, 3, 4, 5, 6] : List Nat).reverse = [6, 5, 4, 3, 2, 1, 0] from rfl,
    List.foldl]
  rw [huffCol_mirror b 0 (by omega) _ (by decide), huffCol_mirror b 1 (by omega) _ (by decide),
    huffCol_mirror b 2 (by omega) _ (by decide), huffCol_mirror b 3 (by omega) _ (by decide),
    huffCol_mirror b 4 (by omega) _ (by decide), huffCol_mirror b 5 (by omega) _ (by decide),
    huffCol_mirror b 6 (by omega) _ (by decide)]

/-- The right-to-left scan of the mirrored board is the left-to-right
scan of the original. -/
theorem huffmanCodeDir_mirror_true (b : BitBoard) :
    BitBoard.huffmanCodeDir (mirrorBoard b) true = BitBoard.huffmanCodeDir b false := by
  rw [BitBoard.huffmanCodeDir, BitBoard.huffmanCodeDir]
  simp only [Bool.false_eq_true, if_false, if_true,
    show List.range WIDTH = [0, 1, 2, 3, 4, 5, 6] from rfl,
    show ([0, 1, 2, 3, 4, 5, 6] : List Nat).reverse = [6, 5, 4, 3, 2, 1, 0] from rfl,
    List.foldl]
  rw [huffCol_mirror b 6 (by omega) _ (by decide), huffCol_mirror b 5 (by omega) _ (by decide),
    huffCol_mirror b 4 (by omega) _ (by decide), huffCol_mirror b 3 (by omega) _ (by decide),
    huffCol_mirror b 2 (by omega) _ (by decide), huffCol_mirror b 1 (by omega) _ (by decide),
    huffCol_mirror b 0 (by omega) _ (by decide)]

/-- C7: the canonical fingerprint is invariant under left-right
mirroring of the board. -/
theorem c7_huffman_mirror_invariant (b : BitBoard) :
    BitBoard.huffmanCode (mirrorBoard b) = BitBoard.huffmanCode b := by
  rw [BitBoard.huffmanCode, BitBoard.huffmanCode, huffmanCodeDir_mirror_false,
    huffmanCodeDir_mirror_true, Nat.min_comm]

/-- Power rewrite: `128 ^ 7 = 2 ^ 49`. -/
theorem pow128_seven : (128 : Nat) ^ 7 = 2 ^ 49 := by norm_num

/-- Applying `shl64` to `1` below the word size gives a power of two. -/
theorem shl64_one (n : Nat) (hn : n < 64) : shl64 1 n = 2 ^ n := by
  rw [shl64, Nat.shiftLeft_eq, Nat.one_mul, Nat.mod_eq_of_lt]
  show 2 ^ n < M64
  calc 2 ^ n < 2 ^ 64 := Nat.pow_lt_pow_right (by norm_num) hn
    _ = M64 := rfl

/-- Bit `7 * c + r` (with `r < 7`) read through the column digit. -/
theorem testBit_of_digit (x c r : Nat) (hr : r < 7) :
    x.testBit (7 * c + r) = (digit x c).testBit r := by
  rw [testBit_digit, decide_eq_true hr, Bool.true_and]

/-- The `playable` test of a well-formed column is exactly "fewer than 6 tiles". -/
theorem playable_iff_of_digit (b : BitBoard) (c h : Nat) (_hc : c < 7) (_hh : h ≤ 6)
    (hbd : digit b.board_mask c = 2 ^ h - 1) :
    (BitBoard.playable b c = true ↔ h ≤ 5) := by
  rw [BitBoard.playable, decide_eq_true_eq]
  have hexp : c * (HEIGHT + 1) + (HEIGHT - 1) = 7 * c + 5 := by
    simp [HEIGHT]
    omega
  rw [BitBoard.topMask, hexp, shl64_one _ (by omega), Nat.and_comm,
    and_two_pow_eq_zero_iff, testBit_of_digit _ _ _ (by omega), hbd,
    Nat.testBit_two_pow_sub_one]
  simp only [decide_eq_false_iff_not]
  omega


/-- Conjunction with a column mask extracts the single new-tile cell
when the column digit is `2^h`. -/
theorem and_columnMask_eq {z c h : Nat} (_hc : c < 7) (hh5 : h ≤ 5)
    (hdig : digit z c = 2 ^ h) :
    z &&& BitBoard.columnMask c = 2 ^ h * 128 ^ c := by
  have hexp : c * (HEIGHT + 1) = 7 * c := by
    rw [show HEIGHT + 1 = 7 from rfl, Nat.mul_comm]
  have hcm : BitBoard.columnMask c = 63 <<< (7 * c) := by
    rw [BitBoard.columnMask, hexp, shl64, show (1 <<< HEIGHT) - 1 = 63 from rfl]
    apply Nat.mod_eq_of_lt
    rw [Nat.shiftLeft_eq]
    calc 63 * 2 ^ (7 * c) ≤ 63 * 2 ^ 42 := by
          apply Nat.mul_le_mul_left
          exact Nat.pow_le_pow_right (by norm_num) (by omega)
      _ < M64 := by norm_num [M64]
  apply Nat.eq_of_testBit_eq
  intro i
  rw [Nat.testBit_land, hcm, Nat.testBit_shiftLeft,
    show (63 : Nat) = 2 ^ 6 - 1 from rfl, Nat.testBit_two_pow_sub_one,
    show (2 : Nat) ^ h * 128 ^ c = 2 ^ (7 * c + h) by
      rw [pow128_eq, pow_add, Nat.mul_comm],
    Nat.testBit_two_pow]
  by_cases hin : 7 * c ≤ i ∧ i < 7 * c + 6
  · obtain ⟨hi1, hi2⟩ := hin
    have hz : z.testBit i = (digit z c).testBit (i - 7 * c) := by
      rw [testBit_digit, decide_eq_true (show i - 7 * c < 7 by omega), Bool.true_and]
      congr 1
      omega
    rw [hz, hdig, Nat.testBit_two_pow,
      decide_eq_true (show i ≥ 7 * c from hi1),
      decide_eq_true (show i - 7 * c < 6 by omega)]
    simp only [Bool.true_and, Bool.and_true]
    exact decide_eq_decide.mpr ⟨fun h1 => by omega, fun h1 => by omega⟩
  · have hmask : (decide (i ≥ 7 * c) && decide (i - 7 * c < 6)) = false := by
      rcases not_and_or.mp hin with h1 | h1
      · rw [decide_eq_false (show ¬ i ≥ 7 * c by omega)]
        simp
      · rw [decide_eq_false (show ¬ i - 7 * c < 6 by omega)]
        simp
    rw [decide_eq_false (show ¬ 7 * c + h = i by omega)]
    rcases Bool.and_eq_false_iff.mp hmask with h1 | h1 <;> simp [h1]

/-- Joining the next tile into a bottom-justified column. -/
theorem lor_pow_pred (h : Nat) (hh : h ≤ 6) : (2 ^ h - 1) ||| 2 ^ h = 2 ^ (h + 1) - 1 := by
  interval_cases h <;> decide

/-- Playing a column preserves structural well-formedness. -/
theorem wf_playColumn {b : BitBoard} {c : Nat} (hwf : WF b) (hc : c < 7)
    (hp : BitBoard.playable b c = true) : WF (BitBoard.playColumn b c) := by
  obtain ⟨hpl, hbl, hcols⟩ := hwf
  obtain ⟨h, hh6, hbd, hpd⟩ := hcols c hc
  have hh5 : h ≤ 5 := (playable_iff_of_digit b c h hc hh6 hbd).mp hp
  have hpow : (128 : Nat) ^ c < 128 ^ 7 := Nat.pow_lt_pow_right (by norm_num) hc
  -- the board mask plus the column's bottom bit
  have hdigs : ∀ c2, c2 < 7 →
      digit b.board_mask c2 + digit (128 ^ c) c2 < 128 := by
    intro c2 hc2
    have hsing := digit_single 1 c c2 (by norm_num)
    rw [Nat.one_mul] at hsing
    rw [hsing]
    by_cases he : c2 = c
    · subst he
      rw [if_pos rfl, hbd]
      have hp6 : (2 : Nat) ^ h ≤ 2 ^ 6 := Nat.pow_le_pow_right (by norm_num) hh6
      omega
    · rw [if_neg he]
      have := digit_lt b.board_mask c2
      omega
  obtain ⟨hzlt, hzdig⟩ := add_digits 7 b.board_mask (128 ^ c) hbl hpow hdigs
  have hz_c : digit (b.board_mask + 128 ^ c) c = 2 ^ h := by
    rw [hzdig c hc]
    have hsing := digit_single 1 c c (by norm_num)
    rw [Nat.one_mul, if_pos rfl] at hsing
    rw [hsing, hbd]
    have hp0 : (0 : Nat) < 2 ^ h := by positivity
    omega
  -- the played move bitmap is the single cell above the column
  have hmv : BitBoard.columnMoveBitmap b c = 2 ^ h * 128 ^ c := by
    rw [BitBoard.columnMoveBitmap]
    have hshl : shl64 1 (c * (HEIGHT + 1)) = 128 ^ c := by
      rw [show c * (HEIGHT + 1) = 7 * c from by
            rw [show HEIGHT + 1 = 7 from rfl, Nat.mul_comm],
        shl64_one _ (by omega), pow128_eq]
    have hadd : add64 b.board_mask (shl64 1 (c * (HEIGHT + 1))) =
        b.board_mask + 128 ^ c := by
      rw [hshl, add64]
      apply Nat.mod_eq_of_lt
      calc b.board_mask + 128 ^ c < 128 ^ 7 := hzlt
        _ < M64 := by norm_num [M64]
    rw [hadd]
    exact and_columnMask_eq hc hh5 hz_c
  -- digits of the move bitmap
  have hmvdig : ∀ c2, digit (2 ^ h * 128 ^ c) c2 = if c2 = c then 2 ^ h else 0 := by
    intro c2
    exact digit_single (2 ^ h) c c2
      (lt_of_le_of_lt (Nat.pow_le_pow_right (by norm_num) hh6) (by norm_num))
  -- bounds for the new masks
  have h49p : b.player_mask < 2 ^ 49 := by rw [← pow128_seven]; exact hpl
  have h49b : b.board_mask < 2 ^ 49 := by rw [← pow128_seven]; exact hbl
  have h49mv : (2 : Nat) ^ h * 128 ^ c < 2 ^ 49 := by
    calc (2 : Nat) ^ h * 128 ^ c < 128 * 128 ^ c := by
          apply (Nat.mul_lt_mul_right (by positivity)).mpr
          exact lt_of_le_of_lt (Nat.pow_le_pow_right (by norm_num) hh6) (by norm_num)
      _ = 128 ^ (c + 1) := (pow_succ' 128 c).symm
      _ ≤ 128 ^ 7 := Nat.pow_le_pow_right (by norm_num) (by omega)
      _ = 2 ^ 49 := pow128_seven
  refine ⟨?_, ?_, ?_⟩
  · show b.player_mask ^^^ b.board_mask < 128 ^ 7
    rw [pow128_seven]
    exact Nat.xor_lt_two_pow h49p h49b
  · show b.board_mask ||| BitBoard.columnMoveBitmap b c < 128 ^ 7
    rw [pow128_seven, hmv]
    exact Nat.or_lt_two_pow h49b h49mv
  · intro c2 hc2
    show ∃ h2, h2 ≤ 6 ∧
      digit (b.board_mask ||| BitBoard.columnMoveBitmap b c) c2 = 2 ^ h2 - 1 ∧
      digit (b.player_mask ^^^ b.board_mask) c2 < 2 ^ h2
    rw [hmv, digit_lor, digit_xor, hmvdig c2]
    by_cases he : c2 = c
    · subst he
      refine ⟨h + 1, by omega, ?_, ?_⟩
      · rw [if_pos rfl, hbd, lor_pow_pred h hh6]
      · rw [hbd]
        exact lt_of_lt_of_le
          (Nat.xor_lt_two_pow hpd (Nat.sub_lt (by positivity) (by norm_num)))
          (Nat.pow_le_pow_right (by norm_num) (by omega))
    · obtain ⟨h2, hh2, hbd2, hpd2⟩ := hcols c2 hc2
      refine ⟨h2, hh2, ?_, ?_⟩
      · rw [if_neg he]
        simpa using hbd2
      · rw [hbd2]
        exact Nat.xor_lt_two_pow hpd2 (Nat.sub_lt (by positivity) (by norm_num))

/-- Every reachable position is structurally well-formed. -/
theorem wf_of_reachable {b : BitBoard} (hr : Reachable b) : WF b := by
  induction hr with
  | empty =>
    refine ⟨by norm_num [BitBoard.newBoard], by norm_num [BitBoard.newBoard], ?_⟩
    intro c _
    exact ⟨0, by omega, by simp [digit, BitBoard.newBoard], by simp [digit, BitBoard.newBoard]⟩
  | step column _ hlt hplay _ ih => exact wf_playColumn ih hlt hplay

/-- The key of a well-formed position is the plain sum of its masks. -/
theorem key_eq_add {b : BitBoard} (hwf : WF b) :
    BitBoard.key b = b.player_mask + b.board_mask := by
  rw [BitBoard.key, add64]
  apply Nat.mod_eq_of_lt
  have h1 := hwf.1
  have h2 := hwf.2.1
  have h7 : (128 : Nat) ^ 7 = 562949953421312 := by norm_num
  have hM : M64 = 18446744073709551616 := rfl
  omega

/-- Column digits of the key of a well-formed position add the player's
and the board's column digits (no carries between columns). -/
theorem key_digit {b : BitBoard} (hwf : WF b) (c : Nat) (hc : c < 7) :
    digit (BitBoard.key b) c = digit b.player_mask c + digit b.board_mask c := by
  have hsums : ∀ c2, c2 < 7 → digit b.player_mask c2 + digit b.board_mask c2 < 128 := by
    intro c2 hc2
    obtain ⟨h, hh6, hbd, hpd⟩ := hwf.2.2 c2 hc2
    have hp6 : (2 : Nat) ^ h ≤ 2 ^ 6 := Nat.pow_le_pow_right (by norm_num) hh6
    rw [hbd]
    omega
  rw [key_eq_add hwf]
  exact (add_digits 7 b.player_mask b.board_mask hwf.1 hwf.2.1 hsums).2 c hc

/-- Per-column decoding: a column's digit sum determines its height and
the player's tiles in it. -/
theorem column_inj {h1 h2 p1 p2 : Nat} (_hh1 : h1 ≤ 6) (_hh2 : h2 ≤ 6)
    (hp1 : p1 < 2 ^ h1) (hp2 : p2 < 2 ^ h2)
    (he : p1 + (2 ^ h1 - 1) = p2 + (2 ^ h2 - 1)) : h1 = h2 ∧ p1 = p2 := by
  have e1 : (0 : Nat) < 2 ^ h1 := by positivity
  have e2 : (0 : Nat) < 2 ^ h2 := by positivity
  have he2 : p1 + 2 ^ h1 = p2 + 2 ^ h2 := by omega
  rcases Nat.lt_trichotomy h1 h2 with hlt | heq | hgt
  · exfalso
    have hle : (2 : Nat) ^ (h1 + 1) ≤ 2 ^ h2 := Nat.pow_le_pow_right (by norm_num) (by omega)
    have hsucc : (2 : Nat) ^ (h1 + 1) = 2 ^ h1 * 2 := pow_succ 2 h1
    omega
  · refine ⟨heq, ?_⟩
    subst heq
    omega
  · exfalso
    have hle : (2 : Nat) ^ (h2 + 1) ≤ 2 ^ h1 := Nat.pow_le_pow_right (by norm_num) (by omega)
    have hsucc : (2 : Nat) ^ (h2 + 1) = 2 ^ h2 * 2 := pow_succ 2 h2
    omega

/-- C8: `key() = player_mask + board_mask` is injective on legal
positions: equal keys of two reachable boards force equal masks. -/
theorem c8_key_injective (P Q : BitBoard) (hP : Reachable P) (hQ : Reachable Q)
    (hk : BitBoard.key P = BitBoard.key Q) :
    P.player_mask = Q.player_mask ∧ P.board_mask = Q.board_mask := by
  have wfP := wf_of_reachable hP
  have wfQ := wf_of_reachable hQ
  have hdig : ∀ c, c < 7 →
      digit P.player_mask c = digit Q.player_mask c ∧
      digit P.board_mask c = digit Q.board_mask c := by
    intro c hc
    obtain ⟨h1, hh1, hb1, hp1⟩ := wfP.2.2 c hc
    obtain ⟨h2, hh2, hb2, hp2⟩ := wfQ.2.2 c hc
    have e : digit P.player_mask c + digit P.board_mask c =
        digit Q.player_mask c + digit Q.board_mask c := by
      rw [← key_digit wfP c hc, ← key_digit wfQ c hc, hk]
    rw [hb1, hb2] at e
    obtain ⟨hhe, hpe⟩ := column_inj hh1 hh2 hp1 hp2 e
    exact ⟨hpe, by rw [hb1, hb2, hhe]⟩
  exact ⟨eq_of_digit_eq 7 _ _ wfP.1 wfQ.1 (fun c hc => (hdig c hc).1),
    eq_of_digit_eq 7 _ _ wfP.2.1 wfQ.2.1 (fun c hc => (hdig c hc).2)⟩

/-- Witness for C8: applied to the (reachable) one-move centre-column
position compared with itself. -/
theorem c8_witness :
    (BitBoard.playColumn BitBoard.newBoard 3).player_mask =
      (BitBoard.playColumn BitBoard.newBoard 3).player_mask ∧
    (BitBoard.playColumn BitBoard.newBoard 3).board_mask =
      (BitBoard.playColumn BitBoard.newBoard 3).board_mask :=
  c8_key_injective (BitBoard.playColumn BitBoard.newBoard 3)
    (BitBoard.playColumn BitBoard.newBoard 3)
    (Reachable.step 3 Reachable.empty (by decide) (by decide) (by decide))
    (Reachable.step 3 Reachable.empty (by decide) (by decide) (by decide)) rfl

/-- If the lookup loop returns normally, the result is either the `-1`
miss marker or the raw stored value at an in-range index holding the
queried fingerprint. -/
theorem getLoop_ok (s : OpeningDatabaseStorage) (code : Nat) :
    ∀ step pos1 r, getLoop s code step pos1 = Except.ok r →
      r = -1 ∨ ∃ i, i < DATABASE_NUM_POSITIONS ∧ s.positions i = code ∧ s.values i = r := by
  intro step
  induction step using Nat.strong_induction_on with
  | _ step ih =>
    intro pos1 r h
    rw [getLoop] at h
    by_cases h0 : step = 0
    · rw [if_pos h0] at h
      left
      exact (Except.ok.injEq _ _ ▸ h).symm
    · rw [if_neg h0] at h
      simp only [] at h
      have hdec : (if step ≠ 1 then (step + step % 2) / 2 else 0) < step := by
        by_cases h1 : step = 1
        · simp [h1]
        · rw [if_pos h1]
          omega
      by_cases hlt : code < posGet s pos1
      · rw [if_pos hlt] at h
        exact ih _ hdec _ _ h
      · rw [if_neg hlt] at h
        by_cases hgt : posGet s pos1 < code
        · rw [if_pos hgt] at h
          exact ih _ hdec _ _ h
        · rw [if_neg hgt] at h
          have heq : posGet s pos1 = code := by omega
          by_cases hin : pos1 < DATABASE_NUM_POSITIONS
          · rw [if_pos hin] at h
            right
            refine ⟨pos1, hin, ?_, (Except.ok.injEq _ _ ▸ h)⟩
            rw [posGet, if_pos hin] at heq
            exact heq
          · rw [if_neg hin] at h
            exact Except.noConfusion h

/-- C1 (amended): `OpeningDatabaseStorage::get` applies no score-space
transformation: any non-panicking result is either the `-1` miss marker
or exactly the stored `i8` value at an index holding the queried
fingerprint. -/
theorem c1_get_returns_raw_value (s : OpeningDatabaseStorage) (code : Nat) (r : Int)
    (h : dbGet s code = Except.ok r) :
    r = -1 ∨ ∃ i, i < DATABASE_NUM_POSITIONS ∧ s.positions i = code ∧ s.values i = r :=
  getLoop_ok s code _ _ r h

/-- The lookup finds the last entry of `dbLinear` on the first probe. -/
theorem dbGet_dbLinear_eval : dbGet dbLinear 4200899 = Except.ok 5 := by
  rw [dbGet, getLoop]
  norm_num [posGet, dbLinear, DATABASE_NUM_POSITIONS]

/-- C1 counterexample: on a conforming database (ascending nonzero
fingerprints, stored score 5 everywhere), looking up the present
fingerprint 4200899 returns the raw 5 — not the score
`21 - ((12 + (100 - 5)) / 2) = -32` the claimed transformation demands. -/
theorem c1_counterexample :
    (∃ i, i < DATABASE_NUM_POSITIONS ∧ dbLinear.positions i = 4200899 ∧
      dbLinear.values i = 5) ∧
    dbGet dbLinear 4200899 = Except.ok 5 ∧
    (5 : Int) ≠ 21 - Int.tdiv (12 + (100 - 5)) 2 :=
  ⟨⟨4200898, by norm_num [DATABASE_NUM_POSITIONS], by norm_num [dbLinear],
      by norm_num [dbLinear]⟩,
    dbGet_dbLinear_eval, by decide⟩

/-- Witness for C1: the amended statement applied to `dbLinear` at the
present fingerprint 4200899 with result 5. -/
theorem c1_witness :
    (5 : Int) = -1 ∨ ∃ i, i < DATABASE_NUM_POSITIONS ∧
      dbLinear.positions i = 4200899 ∧ dbLinear.values i = 5 :=
  c1_get_returns_raw_value dbLinear 4200899 5 dbGet_dbLinear_eval

/-- If the code is nonzero and absent, the loop never hits `Equal`
(in range the fingerprints differ, out of range the probe reads `0`),
so it terminates with the `-1` miss marker. -/
theorem getLoop_no_hit (s : OpeningDatabaseStorage) (code : Nat) (hnz : code ≠ 0)
    (habs : ∀ i, i < DATABASE_NUM_POSITIONS → s.positions i ≠ code) :
    ∀ step pos1, getLoop s code step pos1 = Except.ok (-1) := by
  intro step
  induction step using Nat.strong_induction_on with
  | _ step ih =>
    intro pos1
    rw [getLoop]
    by_cases h0 : step = 0
    · rw [if_pos h0]
    · rw [if_neg h0]
      simp only []
      have hdec : (if step ≠ 1 then (step + step % 2) / 2 else 0) < step := by
        by_cases h1 : step = 1
        · simp [h1]
        · rw [if_pos h1]
          omega
      have hne : posGet s pos1 ≠ code := by
        rw [posGet]
        by_cases hin : pos1 < DATABASE_NUM_POSITIONS
        · rw [if_pos hin]
          exact habs pos1 hin
        · rw [if_neg hin]
          exact fun h => hnz h.symm
      by_cases hlt : code < posGet s pos1
      · rw [if_pos hlt]
        exact ih _ hdec _
      · rw [if_neg hlt]
        rw [if_pos (by omega : posGet s pos1 < code)]
        exact ih _ hdec _

/-- C10 (amended): every *nonzero* fingerprint absent from the database
makes `get` return `-1`; and a present fingerprint whose stored score is
`-1` also returns `-1`, so the two cases are indistinguishable. -/
theorem c10_absent_returns_minus_one (s : OpeningDatabaseStorage) (code : Nat)
    (hnz : code ≠ 0)
    (habs : ∀ i, i < DATABASE_NUM_POSITIONS → s.positions i ≠ code) :
    dbGet s code = Except.ok (-1) ∧ dbGet dbNegOne 4200899 = Except.ok (-1) :=
  ⟨getLoop_no_hit s code hnz habs _ _, by
    rw [dbGet, getLoop]
    norm_num [posGet, dbNegOne, DATABASE_NUM_POSITIONS]⟩

/-- Witness for C10: the nonzero code 1 is absent from `dbShift`
(fingerprints `i + 2`), and the lookup returns `-1`. -/
theorem c10_witness :
    dbGet dbShift 1 = Except.ok (-1) ∧ dbGet dbNegOne 4200899 = Except.ok (-1) :=
  c10_absent_returns_minus_one dbShift 1 (by decide)
    (fun i _ => by simp [dbShift])

/-- C10 counterexample: in a conforming database every stored
fingerprint is positive, yet looking up the absent code `0` does not
return `-1`: the wrapping binary search walks out of range, reads the
out-of-bounds probe as `0`, matches, and panics indexing `values`. -/
theorem c10_counterexample :
    (∀ i, i < DATABASE_NUM_POSITIONS → dbLinear.positions i ≠ 0) ∧
    dbGet dbLinear 0 = Except.error () := by
  constructor
  · intro i _
    simp [dbLinear]
  · rw [dbGet]
    simp [getLoop, posGet, dbLinear, DATABASE_NUM_POSITIONS, wsub64, M64]
